import Mathlib

/-!
Verification of the doc-consolidator PDF-merge pipeline (`merge-pdfs.js`).

The JavaScript source is shallowly embedded: strings are `List Char`
(Unicode scalar values, matching the behaviour of JS regexes compiled with
the `u` flag), filesystem effects are passed in explicitly as functions,
and each JS function becomes a Lean definition of the same name.
-/

set_option maxRecDepth 4000

namespace DocConsolidator

/-! ## Character classes used by the regexes in `cleanFolderName`

`isSpaceB` is the JS regex class `\s` (also the set trimmed by
`String.prototype.trim`): tab, LF, VT, FF, CR, space, NBSP, Ogham space,
the U+2000..U+200A block, LS, PS, NNBSP, MMSP, ideographic space, BOM.
`isWordB` is the JS class `\w`.  `isHexB` is `[a-f0-9]` with the `i` flag.
`isEmojiB` is the union of the six pictograph ranges preserved by the
character filter in `cleanFolderName`. -/

def isSpaceB (c : Char) : Bool :=
  let n := c.toNat
  n == 9 || n == 10 || n == 11 || n == 12 || n == 13 || n == 32 || n == 160 ||
  n == 5760 || (8192 ≤ n && n ≤ 8202) || n == 8232 || n == 8233 || n == 8239 ||
  n == 8287 || n == 12288 || n == 65279

def isWordB (c : Char) : Bool :=
  ('a' ≤ c && c ≤ 'z') || ('A' ≤ c && c ≤ 'Z') || ('0' ≤ c && c ≤ '9') || c == '_'

def isHexB (c : Char) : Bool :=
  ('0' ≤ c && c ≤ '9') || ('a' ≤ c && c ≤ 'f') || ('A' ≤ c && c ≤ 'F')

def isEmojiB (c : Char) : Bool :=
  let n := c.toNat
  (0x1F600 ≤ n && n ≤ 0x1F64F) || (0x1F300 ≤ n && n ≤ 0x1F5FF) ||
  (0x1F680 ≤ n && n ≤ 0x1F6FF) || (0x1F1E0 ≤ n && n ≤ 0x1F1FF) ||
  (0x2600 ≤ n && n ≤ 0x26FF) || (0x2700 ≤ n && n ≤ 0x27BF)

/-- The character class kept by the first `replace` in `cleanFolderName`
(the regex deletes every character that is NOT in `[\w\s‹emoji›]`). -/
def keepChar (c : Char) : Bool :=
  isWordB c || isSpaceB c || isEmojiB c

/-! ## `cleanFolderName` (merge-pdfs.js lines 11-20, the NameSanitizer) -/

/-- Whether `folderName.replace(/\s+[a-f0-9]{32}$/i, '')` finds a match:
the string ends in 32 hex characters immediately preceded by at least one
whitespace character. -/
def hasHashSuffix (s : List Char) : Bool :=
  (s.reverse.take 32).all isHexB &&
  (match s.reverse.drop 32 with
   | c :: _ => isSpaceB c
   | [] => false)

/-- `folderName.replace(/\s+[a-f0-9]{32}$/i, '')`: remove the trailing
32 hex characters together with the whole whitespace run preceding them
(the leftmost match of the anchored pattern starts at the beginning of
that run). -/
def stripHash (s : List Char) : List Char :=
  if hasHashSuffix s then ((s.reverse.drop 32).dropWhile isSpaceB).reverse
  else s

/-- `.replace(/\s+/g, '_')`: each maximal whitespace run becomes one
underscore.  The flag records whether the previous character was part of a
whitespace run already rewritten. -/
def collapseAux : Bool → List Char → List Char
  | _, [] => []
  | prevSpace, c :: rest =>
    if isSpaceB c then
      if prevSpace then collapseAux true rest
      else '_' :: collapseAux true rest
    else c :: collapseAux false rest

def collapseWS (s : List Char) : List Char :=
  collapseAux false s

/-- `.trim()`: drop leading and trailing whitespace. -/
def trimChars (s : List Char) : List Char :=
  ((s.dropWhile isSpaceB).reverse.dropWhile isSpaceB).reverse

/-- Body of `cleanFolderName` on the character list: strip the hash
suffix, delete the non-kept characters, collapse whitespace runs to
underscores, then trim (in exactly the order the source chains them). -/
def cleanList (s : List Char) : List Char :=
  trimChars (collapseWS ((stripHash s).filter keepChar))

def cleanFolderName (s : String) : String :=
  ⟨cleanList s.data⟩

example : cleanFolderName "Catio Academy 21c539b101a3801ca187c6e9ede5a0ee" = "Catio_Academy" := by decide
example : cleanFolderName "Documentation & Knowledge Base" = "Documentation_Knowledge_Base" := by decide

/-! ## `generateFileName` (merge-pdfs.js lines 22-38, the PathNamer) -/

def digitChar : Nat → Char
  | 0 => '0' | 1 => '1' | 2 => '2' | 3 => '3' | 4 => '4'
  | 5 => '5' | 6 => '6' | 7 => '7' | 8 => '8' | 9 => '9'
  | _ => '*'

/-- Decimal digits of `n`, most significant first, computed with explicit
fuel so that the definition is structural (the fuel `n + 1` always
suffices).  Models the JS conversion `String(index)`. -/
def natToDigitsAux : Nat → Nat → List Char
  | 0, _ => []
  | fuel + 1, n =>
    if n < 10 then [digitChar n]
    else natToDigitsAux fuel (n / 10) ++ [digitChar (n % 10)]

def natToDigits (n : Nat) : List Char :=
  natToDigitsAux (n + 1) n

/-- `String(index).padStart(2, '0')`. -/
def padIndexL (i : Nat) : List Char :=
  let s := natToDigits i
  if s.length < 2 then '0' :: s else s

def padIndex (i : Nat) : String :=
  ⟨padIndexL i⟩

/-- `folderPath.split('/')` on character lists. -/
def splitSlash : List Char → List (List Char)
  | [] => [[]]
  | c :: rest =>
    if c = '/' then [] :: splitSlash rest
    else
      match splitSlash rest with
      | [] => [[c]]
      | g :: gs => (c :: g) :: gs

/-- Body of `generateFileName`: split on `/`, drop `"."` segments,
sanitize each part, then build `NN-Root.pdf` / `NN-seg.pdf` /
`NN-parent-child.pdf` from the LAST one or two sanitized parts
(`cleanedParts[length-2]` and `cleanedParts[length-1]` in the source,
here read off the reversed list). -/
def gfnL (folderPath : List Char) (index : Nat) : List Char :=
  let parts := (splitSlash folderPath).filter (fun p => p ≠ ['.'])
  let cleanedParts := parts.map cleanList
  match cleanedParts.reverse with
  | [] => padIndexL index ++ '-' :: "Root.pdf".data
  | [c] => padIndexL index ++ '-' :: (c ++ ".pdf".data)
  | child :: parent :: _ =>
    padIndexL index ++ '-' :: (parent ++ '-' :: (child ++ ".pdf".data))

def generateFileName (folderPath : String) (index : Nat) : String :=
  ⟨gfnL folderPath.data index⟩

example : generateFileName "." 1 = "01-Root.pdf" := by decide
example : generateFileName "Docs Base 21c539b101a3801ca187c6e9ede5a0ee" 2 = "02-Docs_Base.pdf" := by decide
example : generateFileName "a/b/c" 3 = "03-b-c.pdf" := by decide
example : generateFileName "a b/c d" 12 = "12-a_b-c_d.pdf" := by decide
example : generateFileName "x" 100 = "100-x.pdf" := by decide

/-! ## Configuration (merge-pdfs.js lines 7-9) -/

def MIN_FILE_SIZE : Nat := 20 * 1024

/-! ## `getValidPDFs` (merge-pdfs.js lines 40-74, the EligibilityFilter)

Filesystem effects are passed in explicitly: `stat` maps a full path to
`some size` or `none` (a thrown stat error, caught per file).  The
locale-aware comparator of `localeCompare` is abstracted as a boolean
`cmpLe` parameter; the sort itself is modelled as a stable insertion
sort, matching the stability guaranteed for `Array.prototype.sort`. -/

structure DirEntry where
  name : String
  isFile : Bool
deriving DecidableEq

structure PDFFile where
  name : String
  path : String
  size : Nat
deriving DecidableEq

/-- ASCII model of `String.prototype.toLowerCase` (the only characters
whose case matters for the `.pdf` suffix test are ASCII). -/
def toLowerChar (c : Char) : Char :=
  if 'A' ≤ c && c ≤ 'Z' then Char.ofNat (c.toNat + 32) else c

/-- `item.name.toLowerCase().endsWith('.pdf')`. -/
def endsWithPdf (name : String) : Bool :=
  decide ((name.data.map toLowerChar).reverse.take 4 = ['f', 'd', 'p', '.'])

/-- `path.join(folderPath, name)` for separator-free names. -/
def joinPath (folderPath name : String) : String :=
  folderPath ++ "/" ++ name

/-- Stable insertion sort by a boolean `le` relation: an element is
inserted after every earlier element that is `le` it. -/
def insertLe (le : α → α → Bool) (x : α) : List α → List α
  | [] => [x]
  | y :: ys => if le y x then y :: insertLe le x ys else x :: y :: ys

def insertionSort (le : α → α → Bool) : List α → List α
  | [] => []
  | x :: xs => insertLe le x (insertionSort le xs)

/-- Body of `getValidPDFs`: keep the regular files with the `.pdf`
extension whose stat succeeds and reports at least `minFileSize` bytes,
then sort by name.  (`MIN_FILE_SIZE` is taken as a parameter so the
threshold behaviour can be stated for every configured value.) -/
def getValidPDFs (minFileSize : Nat) (stat : String → Option Nat)
    (cmpLe : String → String → Bool) (folderPath : String)
    (items : List DirEntry) : List PDFFile :=
  let valid := items.filterMap (fun item =>
    if item.isFile && endsWithPdf item.name then
      match stat (joinPath folderPath item.name) with
      | some size =>
        if minFileSize ≤ size then
          some ⟨item.name, joinPath folderPath item.name, size⟩
        else none
      | none => none
    else none)
  insertionSort (fun a b => cmpLe a.name b.name) valid

/-! ## `mergePDFs` (merge-pdfs.js lines 76-124, the Merger)

`raw path` is the byte content read by `fs.readFile` / copied by
`fs.copyFile` (`none` models a thrown read error); `parsePages bytes`
is `PDFDocument.load` (`none` models a corrupt document, its pages
otherwise); `writeOk` is whether the final `fs.writeFile` (resp.
`fs.copyFile` write side) succeeds.  The written artifact is represented
by its content: the copied bytes in the single-file case, the
concatenated surviving page list in the multi-file case (a zero-page
document saved by `pdf-lib` is `some []`). -/

structure MergeResult where
  success : Bool
  written : Option (List Nat)
deriving DecidableEq

def mergePDFs (raw : String → Option (List Nat))
    (parsePages : List Nat → Option (List Nat))
    (pdfFiles : List PDFFile) (writeOk : Bool) : MergeResult :=
  match pdfFiles with
  | [] => ⟨false, none⟩
  | [f] =>
    match raw f.path with
    | some bytes => if writeOk then ⟨true, some bytes⟩ else ⟨false, none⟩
    | none => ⟨false, none⟩
  | _ :: _ :: _ =>
    let pages := pdfFiles.flatMap (fun f =>
      match raw f.path with
      | some bytes =>
        match parsePages bytes with
        | some ps => ps
        | none => []
      | none => [])
    if writeOk then ⟨true, some pages⟩ else ⟨false, none⟩

/-! ## `scanFolders` (merge-pdfs.js lines 134-166, the TreeScanner) -/

mutual
inductive FSNode where
  | file (size : Nat)
  | dir (entries : EntryList)
inductive EntryList where
  | nil
  | cons (name : String) (node : FSNode) (rest : EntryList)
end

/-- `items.some(item => item.isFile() && item.name.toLowerCase().endsWith('.pdf'))`. -/
def hasDirectPDFs : EntryList → Bool
  | .nil => false
  | .cons name node rest =>
    match node with
    | .file _ => endsWithPdf name || hasDirectPDFs rest
    | .dir _ => hasDirectPDFs rest

/-- `relativePath === '.' ? item.name : path.join(relativePath, item.name)`. -/
def joinRel (rel name : String) : String :=
  if rel = "." then name else rel ++ "/" ++ name

mutual
/-- One step of the recursive `scan`: the current directory is pushed
(before its children) when it directly contains a `.pdf` file, then every
subdirectory is scanned. -/
def scanNode : FSNode → String → List String
  | .file _, _ => []
  | .dir entries, rel =>
    (if hasDirectPDFs entries then [rel] else []) ++ scanEntries entries rel
def scanEntries : EntryList → String → List String
  | .nil, _ => []
  | .cons name node rest, rel =>
    (match node with
     | .dir _ => scanNode node (joinRel rel name)
     | .file _ => []) ++ scanEntries rest rel
end

/-- One UTF-16 code unit list per character, as JS strings store them. -/
def utf16 (c : Char) : List Nat :=
  if c.toNat < 0x10000 then [c.toNat]
  else [0xD800 + (c.toNat - 0x10000) / 0x400, 0xDC00 + (c.toNat - 0x10000) % 0x400]

def utf16Units (s : String) : List Nat :=
  s.data.flatMap utf16

/-- Lexicographic order on code-unit sequences: the comparison performed
by the default (comparator-less) `Array.prototype.sort` on strings. -/
def leUnits : List Nat → List Nat → Bool
  | [], _ => true
  | _ :: _, [] => false
  | a :: as, b :: bs =>
    if a < b then true
    else if b < a then false
    else leUnits as bs

def strLe (s t : String) : Bool :=
  leUnits (utf16Units s) (utf16Units t)

/-- `scanFolders`: collect the qualifying relative paths (root as `"."`),
then `folders.sort()`. -/
def scanFolders (basePath : FSNode) : List String :=
  insertionSort strLe (scanNode basePath ".")

example :
    scanFolders (.dir (.cons "!a" (.dir (.cons "x.pdf" (.file 30000) .nil))
      (.cons "r.pdf" (.file 30000) .nil)))
    = ["!a", "."] := by decide

/-! ## `main` (merge-pdfs.js lines 168-235, the Orchestrator)

Only the per-directory loop (lines 190-216) carries logic: the loop
index `i` drives the output name via `generateFileName(folderPath, i+1)`
before any eligibility check, merging happens only when the directory
has at least one valid PDF. -/

inductive Outcome where
  | merged
  | failed
  | skipped
deriving DecidableEq

structure FolderRecord where
  folder : String
  fileName : String
  outcome : Outcome
deriving DecidableEq

def processFolders (raw : String → Option (List Nat))
    (parsePages : List Nat → Option (List Nat)) (writeOk : String → Bool)
    (valid : String → List PDFFile) : List String → Nat → List FolderRecord
  | [], _ => []
  | folderPath :: rest, i =>
    let outputFileName := generateFileName folderPath (i + 1)
    let pdfFiles := valid folderPath
    { folder := folderPath
      fileName := outputFileName
      outcome :=
        if pdfFiles.length > 0 then
          if (mergePDFs raw parsePages pdfFiles (writeOk outputFileName)).success then
            .merged
          else .failed
        else .skipped } :: processFolders raw parsePages writeOk valid rest (i + 1)

/-- The whole run: scan, then process each folder in order starting at
loop index 0. -/
def mainRun (tree : FSNode) (raw : String → Option (List Nat))
    (parsePages : List Nat → Option (List Nat)) (writeOk : String → Bool)
    (valid : String → List PDFFile) : List FolderRecord :=
  processFolders raw parsePages writeOk valid (scanFolders tree) 0

/-! ## Claim theorems -/

/-- C1.  The claim states that a multi-file merge in which every input
fails to import reports failure and writes nothing.  The code instead
falls through the per-file catch blocks, saves the fresh (zero-page)
document and reports success: with two eligible files whose reads both
throw, `mergePDFs` returns `true` and writes an empty artifact to the
output path. -/
theorem mergePDFs_all_inputs_fail_writes_empty :
    mergePDFs (fun _ => none) (fun _ => none)
      [⟨"a.pdf", "d/a.pdf", 30000⟩, ⟨"b.pdf", "d/b.pdf", 30000⟩] true
    = ⟨true, some []⟩ := by decide

/-- C2.  The claim states that `sanitize` trims leading and trailing
whitespace BEFORE collapsing whitespace runs to underscores, so no
leading or trailing underscore arises from that whitespace.  In the code
`.trim()` runs after `.replace(/\s+/g, '_')`, making it a no-op: a
leading space becomes a leading underscore and a trailing space a
trailing one. -/
theorem cleanFolderName_keeps_boundary_underscores :
    cleanFolderName " a" = "_a" ∧ cleanFolderName "a " = "a_" := by decide

/-- C8.  Eligibility is strict at the threshold: in a directory whose
single entry is a regular `.pdf` file, a stat result of exactly
`minFileSize - 1` bytes is excluded and one of exactly `minFileSize`
bytes is included (the code keeps a file iff `size >= MIN_FILE_SIZE`). -/
theorem getValidPDFs_threshold (minFileSize : Nat) (hpos : 0 < minFileSize)
    (stat : String → Option Nat) (cmpLe : String → String → Bool)
    (folderPath name : String) (hpdf : endsWithPdf name = true) :
    (stat (joinPath folderPath name) = some (minFileSize - 1) →
      getValidPDFs minFileSize stat cmpLe folderPath [⟨name, true⟩] = []) ∧
    (stat (joinPath folderPath name) = some minFileSize →
      getValidPDFs minFileSize stat cmpLe folderPath [⟨name, true⟩]
        = [⟨name, joinPath folderPath name, minFileSize⟩]) := by
  have hlt : ¬ (minFileSize ≤ minFileSize - 1) := by omega
  constructor <;> intro h
  · simp [getValidPDFs, List.filterMap_cons, hpdf, h, hlt, insertionSort]
  · simp [getValidPDFs, List.filterMap_cons, hpdf, h, insertionSort, insertLe]

theorem getValidPDFs_threshold_witness :
    getValidPDFs MIN_FILE_SIZE (fun _ => some (MIN_FILE_SIZE - 1))
      (fun _ _ => true) "d" [⟨"a.pdf", true⟩] = []
    ∧ getValidPDFs MIN_FILE_SIZE (fun _ => some MIN_FILE_SIZE)
      (fun _ _ => true) "d" [⟨"a.pdf", true⟩]
      = [⟨"a.pdf", joinPath "d" "a.pdf", MIN_FILE_SIZE⟩] :=
  ⟨(getValidPDFs_threshold MIN_FILE_SIZE (by decide) _ _ "d" "a.pdf" (by decide)).1 rfl,
   (getValidPDFs_threshold MIN_FILE_SIZE (by decide) _ _ "d" "a.pdf" (by decide)).2 rfl⟩

/-- C9 counterexample.  The claim states that merging an empty eligible
set is "not a merge failure"; but `mergePDFs` on the empty set returns
`false`, the exact result it returns for a genuinely failed merge (here:
a single-file merge whose input cannot be read). -/
theorem mergePDFs_empty_equals_failure_report :
    mergePDFs (fun _ => none) (fun _ => none) [] true = ⟨false, none⟩
    ∧ mergePDFs (fun _ => none) (fun _ => none)
        [⟨"a.pdf", "d/a.pdf", 30000⟩] true = ⟨false, none⟩ := by decide

/-- C9 amended.  Merging an empty eligible set writes nothing and
returns `false` — the same non-success value as a failed merge — and the
orchestrator never reaches `mergePDFs` with an empty set: a scanned
directory whose valid-PDF list is empty is recorded as skipped ("No
valid PDFs found"), not as failed. -/
theorem mergePDFs_empty_noop (raw : String → Option (List Nat))
    (parsePages : List Nat → Option (List Nat)) (writeOk : Bool)
    (writeOkF : String → Bool) (valid : String → List PDFFile)
    (f : String) (rest : List String) (n : Nat) (h : valid f = []) :
    mergePDFs raw parsePages [] writeOk = ⟨false, none⟩
    ∧ (processFolders raw parsePages writeOkF valid (f :: rest) n).head?
      = some ⟨f, generateFileName f (n + 1), Outcome.skipped⟩ := by
  exact ⟨rfl, by simp [processFolders, h]⟩

theorem mergePDFs_empty_noop_witness :
    mergePDFs (fun _ => none) (fun _ => none) [] true = ⟨false, none⟩
    ∧ (processFolders (fun _ => none) (fun _ => none) (fun _ => true)
        (fun _ => []) ["a"] 0).head?
      = some ⟨"a", generateFileName "a" 1, Outcome.skipped⟩ :=
  mergePDFs_empty_noop _ _ true _ _ "a" [] 0 rfl

/-- The output filename of every processed folder is determined by its
position in the iteration alone: the record for position `k` (counting
from loop start `n`) carries `generateFileName folders[k] (n + k + 1)`. -/
theorem processFolders_map_fileName (raw : String → Option (List Nat))
    (parsePages : List Nat → Option (List Nat)) (writeOk : String → Bool)
    (valid : String → List PDFFile) :
    ∀ (folders : List String) (n : Nat),
      (processFolders raw parsePages writeOk valid folders n).map
          FolderRecord.fileName
        = (List.range folders.length).map
            (fun k => generateFileName (folders.getD k "") (n + k + 1)) := by
  intro folders
  induction folders with
  | nil => intro n; simp [processFolders]
  | cons f rest ih =>
    intro n
    simp only [processFolders, List.map_cons, List.length_cons,
      List.range_succ_eq_map, List.map_map, ih (n + 1)]
    refine congrArg₂ _ (by simp) (List.map_congr_left ?_)
    intro k _
    simp only [Function.comp]
    have h1 : (f :: rest).getD (k + 1) "" = rest.getD k "" := by simp [List.getD]
    have h2 : n + (k + 1) + 1 = n + 1 + k + 1 := by omega
    rw [h1, h2]

/-- C4.  The naming index of a scanned directory is its 1-based position
among ALL scanned directories: the k-th record's filename is
`generateFileName folders[k] (k+1)` whatever the eligibility function
returns, and the assignment is identical for any two eligibility
functions (a directory with an empty eligible set still consumes its
index). -/
theorem processFolders_index_counts_all_scanned
    (raw : String → Option (List Nat))
    (parsePages : List Nat → Option (List Nat)) (writeOk : String → Bool)
    (valid valid' : String → List PDFFile) (folders : List String) :
    ((processFolders raw parsePages writeOk valid folders 0).map
        FolderRecord.fileName
      = (List.range folders.length).map
          (fun k => generateFileName (folders.getD k "") (k + 1)))
    ∧ ((processFolders raw parsePages writeOk valid folders 0).map
        FolderRecord.fileName
      = (processFolders raw parsePages writeOk valid' folders 0).map
          FolderRecord.fileName) := by
  constructor
  · simpa using processFolders_map_fileName raw parsePages writeOk valid folders 0
  · rw [processFolders_map_fileName raw parsePages writeOk valid folders 0,
      processFolders_map_fileName raw parsePages writeOk valid' folders 0]

/-- C5.  The generated filename depends only on the sanitized non-`"."`
segments: zero segments give `{paddedIndex}-Root.pdf`, one segment gives
`{paddedIndex}-{segment}.pdf`, and two or more segments use only the
LAST TWO sanitized segments as `{paddedIndex}-{parent}-{child}.pdf`,
whatever ancestry (`pre`) lies above them. -/
theorem generateFileName_cases (p : String) (i : Nat) :
    (((splitSlash p.data).filter (fun q => q ≠ ['.'])).map cleanList = [] →
      generateFileName p i = ⟨padIndexL i ++ '-' :: "Root.pdf".data⟩)
    ∧ (∀ s, ((splitSlash p.data).filter (fun q => q ≠ ['.'])).map cleanList = [s] →
      generateFileName p i = ⟨padIndexL i ++ '-' :: (s ++ ".pdf".data)⟩)
    ∧ (∀ pre par ch,
        ((splitSlash p.data).filter (fun q => q ≠ ['.'])).map cleanList
          = pre ++ [par, ch] →
      generateFileName p i
        = ⟨padIndexL i ++ '-' :: (par ++ '-' :: (ch ++ ".pdf".data))⟩) := by
  refine ⟨fun h => ?_, fun s h => ?_, fun pre par ch h => ?_⟩ <;>
    simp only [generateFileName, gfnL, h, List.reverse_nil, List.reverse_cons,
      List.reverse_append, List.nil_append, List.cons_append]

theorem generateFileName_cases_witness :
    generateFileName "x/a b/c" 3 = "03-a_b-c.pdf" := by
  have h := (generateFileName_cases "x/a b/c" 3).2.2 [['x']] "a_b".data "c".data
    (by decide)
  rw [h]; decide

/-! ### Uniqueness of generated filenames (C10) -/

def isDigitB (c : Char) : Bool :=
  '0' ≤ c && c ≤ '9'

theorem natToDigitsAux_fuel : ∀ f1 f2 n, n < f1 → n < f2 →
    natToDigitsAux f1 n = natToDigitsAux f2 n := by
  intro f1
  induction f1 with
  | zero => intro f2 n h1; omega
  | succ f ih =>
    intro f2 n h1 h2
    cases f2 with
    | zero => omega
    | succ f' =>
      simp only [natToDigitsAux]
      by_cases h : n < 10
      · simp [h]
      · simp only [h, if_false]
        rw [ih f' (n / 10) (by omega) (by omega)]

theorem natToDigitsAux_ne_nil : ∀ fuel n, n < fuel → natToDigitsAux fuel n ≠ [] := by
  intro fuel n h
  cases fuel with
  | zero => omega
  | succ f =>
    simp only [natToDigitsAux]
    by_cases h10 : n < 10 <;> simp [h10]

theorem natToDigitsAux_digits : ∀ fuel n, n < fuel →
    ∀ c ∈ natToDigitsAux fuel n, isDigitB c = true := by
  intro fuel
  induction fuel with
  | zero => intro n h; omega
  | succ f ih =>
    intro n h c hc
    have hd : ∀ m, m < 10 → isDigitB (digitChar m) = true := by decide
    simp only [natToDigitsAux] at hc
    by_cases h10 : n < 10
    · simp [h10] at hc
      exact hc ▸ hd n h10
    · simp only [h10, if_false, List.mem_append, List.mem_singleton] at hc
      rcases hc with hc | hc
      · exact ih (n / 10) (by omega) c hc
      · exact hc ▸ hd (n % 10) (by omega)

theorem natToDigitsAux_head_ne_zero : ∀ fuel n, n < fuel → 1 ≤ n →
    ∀ c, (natToDigitsAux fuel n).head? = some c → c ≠ '0' := by
  intro fuel
  induction fuel with
  | zero => intro n h; omega
  | succ f ih =>
    intro n h h1 c hc
    simp only [natToDigitsAux] at hc
    by_cases h10 : n < 10
    · simp [h10] at hc
      have : ∀ m, 1 ≤ m → m < 10 → digitChar m ≠ '0' := by decide
      exact hc ▸ this n h1 h10
    · simp only [h10, if_false] at hc
      cases haux : natToDigitsAux f (n / 10) with
      | nil => exact absurd haux (natToDigitsAux_ne_nil f (n / 10) (by omega))
      | cons a as =>
        rw [haux, List.cons_append, List.head?_cons] at hc
        have ha : (natToDigitsAux f (n / 10)).head? = some a := by
          rw [haux]; rfl
        exact (Option.some.injEq _ _ ▸ hc) ▸ ih (n / 10) (by omega) (by omega) a ha

theorem natToDigitsAux_inj : ∀ fuel n m, n < fuel → m < fuel →
    natToDigitsAux fuel n = natToDigitsAux fuel m → n = m := by
  intro fuel
  induction fuel with
  | zero => intro n m h; omega
  | succ f ih =>
    intro n m hn hm h
    have hd : ∀ a < 10, ∀ b < 10, digitChar a = digitChar b → a = b := by decide
    simp only [natToDigitsAux] at h
    by_cases h1 : n < 10 <;> by_cases h2 : m < 10
    · simp [h1, h2] at h
      exact hd n h1 m h2 h
    · exfalso
      simp only [h1, h2, if_true, if_false] at h
      have hlen := congrArg List.length h
      cases haux : natToDigitsAux f (m / 10) with
      | nil => exact natToDigitsAux_ne_nil f (m / 10) (by omega) haux
      | cons a as => simp [haux] at hlen
    · exfalso
      simp only [h1, h2, if_true, if_false] at h
      have hlen := congrArg List.length h
      cases haux : natToDigitsAux f (n / 10) with
      | nil => exact natToDigitsAux_ne_nil f (n / 10) (by omega) haux
      | cons a as => simp [haux] at hlen
    · simp only [h1, h2, if_false] at h
      have hr := congrArg List.reverse h
      simp only [List.reverse_append, List.reverse_singleton,
        List.singleton_append, List.cons.injEq, List.reverse_inj] at hr
      have hmod : n % 10 = m % 10 := hd _ (by omega) _ (by omega) hr.1
      have hdiv : n / 10 = m / 10 := ih _ _ (by omega) (by omega) hr.2
      omega

theorem natToDigits_inj (n m : Nat) (h : natToDigits n = natToDigits m) : n = m := by
  have h1 : natToDigits n = natToDigitsAux (n + m + 1) n :=
    natToDigitsAux_fuel (n + 1) (n + m + 1) n (by omega) (by omega)
  have h2 : natToDigits m = natToDigitsAux (n + m + 1) m :=
    natToDigitsAux_fuel (m + 1) (n + m + 1) m (by omega) (by omega)
  exact natToDigitsAux_inj (n + m + 1) n m (by omega) (by omega)
    (h1 ▸ h2 ▸ h)

theorem natToDigits_small (n : Nat) (h : n < 10) : natToDigits n = [digitChar n] := by
  simp [natToDigits, natToDigitsAux, h]

theorem natToDigits_length_lt2_iff (n : Nat) : (natToDigits n).length < 2 ↔ n < 10 := by
  constructor
  · intro h
    by_contra h10
    simp only [natToDigits, natToDigitsAux, h10, if_false] at h
    cases haux : natToDigitsAux n (n / 10) with
    | nil => exact natToDigitsAux_ne_nil n (n / 10) (by omega) haux
    | cons a as => simp [haux] at h; omega
  · intro h
    rw [natToDigits_small n h]
    simp

theorem padIndexL_digits (i : Nat) : ∀ c ∈ padIndexL i, isDigitB c = true := by
  intro c hc
  simp only [padIndexL] at hc
  by_cases h : (natToDigits i).length < 2
  · simp only [h, if_true, List.mem_cons] at hc
    rcases hc with hc | hc
    · rw [hc]; decide
    · exact natToDigitsAux_digits (i + 1) i (by omega) c hc
  · simp only [h, if_false] at hc
    exact natToDigitsAux_digits (i + 1) i (by omega) c hc

theorem padIndexL_inj (i j : Nat) (h : padIndexL i = padIndexL j) : i = j := by
  simp only [padIndexL] at h
  by_cases hi : (natToDigits i).length < 2 <;> by_cases hj : (natToDigits j).length < 2
  · simp only [hi, hj, if_true, List.cons.injEq] at h
    exact natToDigits_inj i j h.2
  · exfalso
    simp only [hi, hj, if_true, if_false] at h
    have hlt : i < 10 := (natToDigits_length_lt2_iff i).mp hi
    have hge : 10 ≤ j := by
      by_contra hc
      exact hj ((natToDigits_length_lt2_iff j).mpr (by omega))
    have h0 := congrArg List.head? h
    rw [List.head?_cons] at h0
    exact natToDigitsAux_head_ne_zero (j + 1) j (by omega) (by omega) '0' h0.symm rfl
  · exfalso
    simp only [hi, hj, if_true, if_false] at h
    have hge : 10 ≤ i := by
      by_contra hc
      exact hi ((natToDigits_length_lt2_iff i).mpr (by omega))
    have h0 := congrArg List.head? h
    rw [List.head?_cons] at h0
    exact natToDigitsAux_head_ne_zero (i + 1) i (by omega) (by omega) '0' h0 rfl
  · simp only [hi, hj, if_false] at h
    exact natToDigits_inj i j h

/-- In `digits ++ '-' :: rest`, the digit prefix is recoverable: two such
decompositions of the same character list have the same digit prefix. -/
theorem digits_dash_split : ∀ (a b r1 r2 : List Char),
    (∀ c ∈ a, isDigitB c = true) → (∀ c ∈ b, isDigitB c = true) →
    a ++ '-' :: r1 = b ++ '-' :: r2 → a = b := by
  intro a
  induction a with
  | nil =>
    intro b r1 r2 _ hb h
    cases b with
    | nil => rfl
    | cons c bs =>
      exfalso
      simp only [List.nil_append, List.cons_append, List.cons.injEq] at h
      have := hb c (by simp)
      rw [← h.1] at this
      exact absurd this (by decide)
  | cons c as ih =>
    intro b r1 r2 ha hb h
    cases b with
    | nil =>
      exfalso
      simp only [List.nil_append, List.cons_append, List.cons.injEq] at h
      have := ha c (by simp)
      rw [h.1] at this
      exact absurd this (by decide)
    | cons d bs =>
      simp only [List.cons_append, List.cons.injEq] at h
      exact h.1 ▸ congrArg _
        (ih bs r1 r2 (fun x hx => ha x (by simp [hx]))
          (fun x hx => hb x (by simp [hx])) h.2)

/-- Every generated filename starts with the padded index followed by a
dash. -/
theorem gfnL_shape (p : List Char) (i : Nat) :
    ∃ r, gfnL p i = padIndexL i ++ '-' :: r := by
  unfold gfnL
  dsimp only
  split
  · exact ⟨_, rfl⟩
  · exact ⟨_, rfl⟩
  · exact ⟨_, rfl⟩

/-- C10.  Output filenames are unique per run: two distinct positive
indices always give distinct filenames, whatever the directory paths,
because the filename starts with the padded decimal index, whose digits
are terminated by the first dash, and the padding is injective. -/
theorem generateFileName_unique (p q : String) (i j : Nat)
    (_hi : 0 < i) (_hj : 0 < j) (hij : i ≠ j) :
    generateFileName p i ≠ generateFileName q j := by
  intro h
  obtain ⟨r1, h1⟩ := gfnL_shape p.data i
  obtain ⟨r2, h2⟩ := gfnL_shape q.data j
  have hd : gfnL p.data i = gfnL q.data j := congrArg String.data h
  rw [h1, h2] at hd
  exact hij (padIndexL_inj i j
    (digits_dash_split _ _ _ _ (padIndexL_digits i) (padIndexL_digits j) hd))

theorem generateFileName_unique_witness :
    generateFileName "a" 1 ≠ generateFileName "b/c" 2 :=
  generateFileName_unique "a" "b/c" 1 2 (by decide) (by decide) (by decide)

/-! ### Orderedness of the scan result (C3) -/

theorem leUnits_total : ∀ a b : List Nat, leUnits a b = true ∨ leUnits b a = true := by
  intro a
  induction a with
  | nil => intro b; left; rfl
  | cons x as ih =>
    intro b
    cases b with
    | nil => right; rfl
    | cons y bs =>
      by_cases hxy : x < y
      · left; simp [leUnits, hxy]
      · by_cases hyx : y < x
        · right; simp [leUnits, hyx]
        · have hxy' : x = y := by omega
          rcases ih bs with h | h
          · left; simp [leUnits, hxy', h]
          · right; simp [leUnits, hxy', h]

theorem leUnits_trans : ∀ a b c : List Nat,
    leUnits a b = true → leUnits b c = true → leUnits a c = true := by
  intro a
  induction a with
  | nil => intro b c _ _; rfl
  | cons x as ih =>
    intro b c hab hbc
    cases b with
    | nil => simp [leUnits] at hab
    | cons y bs =>
      cases c with
      | nil => simp [leUnits] at hbc
      | cons z cs =>
        simp only [leUnits] at hab hbc ⊢
        by_cases hxy : x < y <;> by_cases hyz : y < z
        · simp [show x < z by omega]
        · simp only [hyz, if_false] at hbc
          by_cases hzy : z < y
          · simp [hzy] at hbc
          · simp [show x < z by omega]
        · simp only [hxy, if_false] at hab
          by_cases hyx : y < x
          · simp [hyx] at hab
          · simp [show x < z by omega]
        · simp only [hxy, hyz, if_false] at hab hbc
          by_cases hyx : y < x
          · simp [hyx] at hab
          · by_cases hzy : z < y
            · simp [hzy] at hbc
            · rw [if_neg hyx] at hab
              rw [if_neg hzy] at hbc
              have hxz : ¬ x < z := by omega
              have hzx : ¬ z < x := by omega
              simp only [hxz, hzx, if_false]
              exact ih bs cs hab hbc

theorem strLe_total (s t : String) : strLe s t = true ∨ strLe t s = true :=
  leUnits_total _ _

theorem strLe_trans (s t u : String) (h1 : strLe s t = true)
    (h2 : strLe t u = true) : strLe s u = true :=
  leUnits_trans _ _ _ h1 h2

theorem mem_insertLe (le : α → α → Bool) (x z : α) :
    ∀ l : List α, z ∈ insertLe le x l ↔ z = x ∨ z ∈ l := by
  intro l
  induction l with
  | nil => simp [insertLe]
  | cons y ys ih =>
    simp only [insertLe]
    by_cases h : le y x = true
    · rw [if_pos h]
      simp only [List.mem_cons, ih]
      tauto
    · rw [if_neg h]
      simp only [List.mem_cons]

theorem pairwise_insertLe (le : α → α → Bool)
    (htot : ∀ a b, le a b = true ∨ le b a = true)
    (htrans : ∀ a b c, le a b = true → le b c = true → le a c = true)
    (x : α) : ∀ l : List α, l.Pairwise (fun a b => le a b = true) →
      (insertLe le x l).Pairwise (fun a b => le a b = true) := by
  intro l
  induction l with
  | nil => intro _; simp [insertLe]
  | cons y ys ih =>
    intro hp
    rw [List.pairwise_cons] at hp
    simp only [insertLe]
    by_cases h : le y x = true
    · rw [if_pos h, List.pairwise_cons]
      refine ⟨fun z hz => ?_, ih hp.2⟩
      rcases (mem_insertLe le x z ys).mp hz with hzx | hzys
      · exact hzx ▸ h
      · exact hp.1 z hzys
    · have hxy : le x y = true := (htot y x).resolve_left h
      rw [if_neg h, List.pairwise_cons]
      refine ⟨fun z hz => ?_, List.pairwise_cons.mpr hp⟩
      rcases List.mem_cons.mp hz with hzy | hzys
      · exact hzy ▸ hxy
      · exact htrans x y z hxy (hp.1 z hzys)

theorem pairwise_insertionSort (le : α → α → Bool)
    (htot : ∀ a b, le a b = true ∨ le b a = true)
    (htrans : ∀ a b c, le a b = true → le b c = true → le a c = true) :
    ∀ l : List α, (insertionSort le l).Pairwise (fun a b => le a b = true) := by
  intro l
  induction l with
  | nil => simp [insertionSort]
  | cons x xs ih => exact pairwise_insertLe le htot htrans x _ ih

/-- C3 counterexample.  A directory named `"!a"` (with a PDF inside)
next to a PDF in the root: the scan contains the root as `"."`, but the
default string sort places `"!a"` first (`'!'` is below `'.'` in
code-unit order), so the root does not come first. -/
theorem scanFolders_root_not_first :
    scanFolders (.dir (.cons "!a" (.dir (.cons "x.pdf" (.file 30000) .nil))
        (.cons "r.pdf" (.file 30000) .nil)))
      = ["!a", "."]
    ∧ "." ∈ scanFolders (.dir (.cons "!a" (.dir (.cons "x.pdf" (.file 30000) .nil))
        (.cons "r.pdf" (.file 30000) .nil)))
    ∧ (scanFolders (.dir (.cons "!a" (.dir (.cons "x.pdf" (.file 30000) .nil))
        (.cons "r.pdf" (.file 30000) .nil)))).head? ≠ some "." := by
  decide

/-- C3 amended.  The scan result is sorted ascending by the UTF-16
code-unit lexicographic order on the relative path strings (the
comparison used by the comparator-less `Array.prototype.sort`); the root
appears as `"."` when included but is not guaranteed to be first, since
paths may begin with characters below `'.'`. -/
theorem scanFolders_sorted (t : FSNode) :
    (scanFolders t).Pairwise (fun a b => strLe a b = true) :=
  pairwise_insertionSort strLe strLe_total strLe_trans _

/-! ### The hash-suffix stripping step (C6) -/

theorem dropWhile_append_of_all (p : α → Bool) :
    ∀ (l₁ l₂ : List α), (∀ x ∈ l₁, p x = true) →
      (l₁ ++ l₂).dropWhile p = l₂.dropWhile p := by
  intro l₁
  induction l₁ with
  | nil => intro l₂ _; rfl
  | cons x xs ih =>
    intro l₂ hall
    rw [List.cons_append, List.dropWhile_cons, if_pos (hall x (by simp))]
    exact ih l₂ (fun y hy => hall y (by simp [hy]))

/-- C6.  The stripping step of `sanitize` (the first `replace` of
`cleanFolderName`) removes EXACTLY a trailing maximal whitespace run
followed by exactly 32 hex characters, and leaves every string without
such a suffix unchanged.  `a` not ending in whitespace makes `w` the
whole whitespace run, so `stripHash (a ++ w ++ h) = a` says the run and
the 32 hex characters are removed and nothing else; the second conjunct
says strings admitting no such decomposition pass through untouched. -/
theorem stripHash_spec (s : List Char) :
    (∀ a w h, s = a ++ w ++ h → w ≠ [] → (∀ c ∈ w, isSpaceB c = true) →
      h.length = 32 → (∀ c ∈ h, isHexB c = true) →
      (∀ c, a.getLast? = some c → isSpaceB c = false) →
      stripHash s = a)
    ∧ ((∀ a w h, ¬(s = a ++ w ++ h ∧ w ≠ [] ∧ (∀ c ∈ w, isSpaceB c = true) ∧
        h.length = 32 ∧ (∀ c ∈ h, isHexB c = true))) →
      stripHash s = s) := by
  constructor
  · intro a w h hs hw hwsp hlen hhex ha
    have hlen' : h.reverse.length = 32 := by simp [hlen]
    have hrev : s.reverse = h.reverse ++ (w.reverse ++ a.reverse) := by
      subst hs
      simp [List.reverse_append]
    have htake : s.reverse.take 32 = h.reverse := by
      rw [hrev]; exact List.take_left' hlen'
    have hdrop : s.reverse.drop 32 = w.reverse ++ a.reverse := by
      rw [hrev]; exact List.drop_left' hlen'
    obtain ⟨c, cs, hwc⟩ : ∃ c cs, w.reverse = c :: cs := by
      cases hwrev : w.reverse with
      | nil =>
        exact absurd (by simpa using congrArg List.reverse hwrev) hw
      | cons c cs => exact ⟨c, cs, rfl⟩
    have hcsp : isSpaceB c = true :=
      hwsp c (by rw [← List.mem_reverse, hwc]; simp)
    have hsuf : hasHashSuffix s = true := by
      unfold hasHashSuffix
      rw [htake, hdrop, hwc, List.cons_append, Bool.and_eq_true]
      exact ⟨List.all_eq_true.mpr (fun x hx => hhex x (List.mem_reverse.mp hx)),
        hcsp⟩
    unfold stripHash
    rw [if_pos hsuf, hdrop, hwc, List.cons_append,
      ← List.cons_append, ← hwc,
      dropWhile_append_of_all isSpaceB w.reverse a.reverse
        (fun x hx => hwsp x (List.mem_reverse.mp hx))]
    cases har : a.reverse with
    | nil =>
      have : a = [] := by simpa using congrArg List.reverse har
      simp [this]
    | cons d ds =>
      have hd : a.getLast? = some d := by
        rw [← List.head?_reverse, har]; rfl
      have hdns : ¬ isSpaceB d = true := by simp [ha d hd]
      rw [List.dropWhile_cons, if_neg hdns, ← har, List.reverse_reverse]
  · intro hno
    by_cases hsuf : hasHashSuffix s = true
    · exfalso
      unfold hasHashSuffix at hsuf
      rw [Bool.and_eq_true] at hsuf
      obtain ⟨hhex32, hmatch⟩ := hsuf
      cases hdrop : s.reverse.drop 32 with
      | nil => rw [hdrop] at hmatch; exact absurd hmatch (by simp)
      | cons c rest =>
        rw [hdrop] at hmatch
        have hc : isSpaceB c = true := hmatch
        refine hno ((s.reverse.drop 32).dropWhile isSpaceB).reverse
          ((s.reverse.drop 32).takeWhile isSpaceB).reverse
          (s.reverse.take 32).reverse
          ⟨?_, ?_, ?_, ?_, ?_⟩
        · calc s = (s.reverse.take 32 ++ s.reverse.drop 32).reverse := by
                rw [List.take_append_drop, List.reverse_reverse]
            _ = (s.reverse.drop 32).reverse ++ (s.reverse.take 32).reverse := by
                rw [List.reverse_append]
            _ = ((s.reverse.drop 32).takeWhile isSpaceB
                  ++ (s.reverse.drop 32).dropWhile isSpaceB).reverse
                ++ (s.reverse.take 32).reverse := by
                rw [List.takeWhile_append_dropWhile]
            _ = (((s.reverse.drop 32).dropWhile isSpaceB).reverse
                  ++ ((s.reverse.drop 32).takeWhile isSpaceB).reverse)
                ++ (s.reverse.take 32).reverse := by
                rw [List.reverse_append]
        · rw [hdrop, List.takeWhile_cons, if_pos hc]
          simp
        · intro x hx
          exact List.mem_takeWhile_imp (List.mem_reverse.mp hx)
        · have hge : 33 ≤ s.reverse.length := by
            have := congrArg List.length hdrop
            rw [List.length_drop] at this
            simp only [List.length_cons] at this
            omega
          rw [List.length_reverse, List.length_take]
          omega
        · intro x hx
          exact List.all_eq_true.mp hhex32 x (List.mem_reverse.mp hx)
    · have hfalse : hasHashSuffix s = false := by
        simpa using hsuf
      unfold stripHash
      rw [hfalse]
      simp

theorem stripHash_spec_witness :
    stripHash "Catio Academy 21c539b101a3801ca187c6e9ede5a0ee".data
      = "Catio Academy".data :=
  (stripHash_spec "Catio Academy 21c539b101a3801ca187c6e9ede5a0ee".data).1
    "Catio Academy".data [' '] "21c539b101a3801ca187c6e9ede5a0ee".data
    (by decide) (by decide) (by decide) (by decide) (by decide) (by decide)

/-! ### Idempotence of the sanitizer (C7) -/

theorem mem_collapseAux :
    ∀ (l : List Char) (b : Bool) (c : Char), c ∈ collapseAux b l →
      c = '_' ∨ (c ∈ l ∧ isSpaceB c = false) := by
  intro l
  induction l with
  | nil => intro b c hc; simp [collapseAux] at hc
  | cons x xs ih =>
    intro b c hc
    simp only [collapseAux] at hc
    by_cases hx : isSpaceB x = true
    · rw [if_pos hx] at hc
      by_cases hb : b = true
      · rw [if_pos hb] at hc
        rcases ih true c hc with h | h
        · exact Or.inl h
        · exact Or.inr ⟨by simp [h.1], h.2⟩
      · rw [if_neg hb] at hc
        rcases List.mem_cons.mp hc with h | h
        · exact Or.inl h
        · rcases ih true c h with h' | h'
          · exact Or.inl h'
          · exact Or.inr ⟨by simp [h'.1], h'.2⟩
    · rw [if_neg hx] at hc
      rcases List.mem_cons.mp hc with h | h
      · exact Or.inr ⟨by simp [h], by rw [h]; simpa using hx⟩
      · rcases ih false c h with h' | h'
        · exact Or.inl h'
        · exact Or.inr ⟨by simp [h'.1], h'.2⟩

theorem mem_dropWhile_imp (p : α → Bool) :
    ∀ l : List α, ∀ x ∈ l.dropWhile p, x ∈ l := by
  intro l
  induction l with
  | nil => intro x hx; simp at hx
  | cons y ys ih =>
    intro x hx
    rw [List.dropWhile_cons] at hx
    by_cases hy : p y = true
    · rw [if_pos hy] at hx
      exact List.mem_cons.mpr (Or.inr (ih x hx))
    · rw [if_neg hy] at hx
      exact hx

theorem mem_trimChars (l : List Char) (c : Char) (hc : c ∈ trimChars l) :
    c ∈ l := by
  unfold trimChars at hc
  rw [List.mem_reverse] at hc
  have h1 := mem_dropWhile_imp isSpaceB (l.dropWhile isSpaceB).reverse c hc
  rw [List.mem_reverse] at h1
  exact mem_dropWhile_imp isSpaceB l c h1

/-- Every character of a sanitized name is a kept, non-whitespace
character: the filter removed the others, the collapse replaced each
whitespace run with `'_'`. -/
theorem cleanList_chars (l : List Char) :
    ∀ c ∈ cleanList l, keepChar c = true ∧ isSpaceB c = false := by
  intro c hc
  unfold cleanList collapseWS at hc
  have h1 := mem_trimChars _ c hc
  rcases mem_collapseAux _ false c h1 with h | h
  · subst h; exact ⟨by decide, by decide⟩
  · exact ⟨List.of_mem_filter h.1, h.2⟩

theorem stripHash_of_no_space (l : List Char)
    (h : ∀ c ∈ l, isSpaceB c = false) : stripHash l = l := by
  have hfalse : hasHashSuffix l = false := by
    unfold hasHashSuffix
    cases hd : l.reverse.drop 32 with
    | nil => simp
    | cons c rest =>
      have hc : c ∈ l := by
        have : c ∈ l.reverse.drop 32 := by rw [hd]; simp
        exact List.mem_reverse.mp (List.mem_of_mem_drop this)
      simp [h c hc]
  unfold stripHash
  rw [hfalse]
  simp

theorem collapseAux_of_no_space :
    ∀ (l : List Char) (b : Bool), (∀ c ∈ l, isSpaceB c = false) →
      collapseAux b l = l := by
  intro l
  induction l with
  | nil => intro b _; rfl
  | cons x xs ih =>
    intro b h
    have hx : ¬ isSpaceB x = true := by simp [h x (by simp)]
    simp only [collapseAux]
    rw [if_neg hx, ih false (fun c hc => h c (by simp [hc]))]

theorem dropWhile_of_no_space (l : List Char)
    (h : ∀ c ∈ l, isSpaceB c = false) : l.dropWhile isSpaceB = l := by
  cases l with
  | nil => rfl
  | cons x xs =>
    rw [List.dropWhile_cons, if_neg (by simp [h x (by simp)])]

theorem trimChars_of_no_space (l : List Char)
    (h : ∀ c ∈ l, isSpaceB c = false) : trimChars l = l := by
  unfold trimChars
  rw [dropWhile_of_no_space l h,
    dropWhile_of_no_space l.reverse (fun c hc => h c (List.mem_reverse.mp hc)),
    List.reverse_reverse]

theorem cleanList_idem (l : List Char) :
    cleanList (cleanList l) = cleanList l := by
  have hc := cleanList_chars l
  conv_lhs => rw [cleanList]
  rw [stripHash_of_no_space _ (fun c h => (hc c h).2),
    List.filter_eq_self.mpr (fun c h => (hc c h).1)]
  rw [collapseWS, collapseAux_of_no_space _ false (fun c h => (hc c h).2),
    trimChars_of_no_space _ (fun c h => (hc c h).2)]

/-- C7.  `sanitize` is idempotent on every input whose sanitized form
does not end in a further hash suffix (in fact the hypothesis is
automatic: sanitized output contains no whitespace, so it can never
match the hash-suffix pattern). -/
theorem cleanFolderName_idem (x : String)
    (_h : hasHashSuffix (cleanFolderName x).data = false) :
    cleanFolderName (cleanFolderName x) = cleanFolderName x := by
  show String.mk (cleanList (cleanList x.data)) = String.mk (cleanList x.data)
  exact congrArg String.mk (cleanList_idem x.data)

theorem cleanFolderName_idem_witness :
    hasHashSuffix (cleanFolderName "Hello  World ✨").data = false
    ∧ cleanFolderName (cleanFolderName "Hello  World ✨")
      = cleanFolderName "Hello  World ✨" :=
  ⟨by decide, cleanFolderName_idem "Hello  World ✨" (by decide)⟩

end DocConsolidator
